import Mathlib

/-!
Verification of the parallel midpoint-rule π estimator (`src/PI/pi_integral.cpp`).

Shallow embedding of the program's logic:

* Machine integers (`uint64_t n`, `unsigned int num_threads`) are modelled as `ℕ`.
  All integer arithmetic performed by the program (`t * base_chunk + min t remainder`,
  `start_idx + chunk_size`, …) stays strictly below `2^64`, so plain `ℕ`
  arithmetic coincides with the C++ `uint64_t` arithmetic on every value the
  program actually computes; argument parsing models the `uint64_t` /
  `unsigned int` wrap-around explicitly with `% 2^64` / `% 2^32`.
* IEEE-754 binary64 (`double`) arithmetic is modelled exactly: a double value is
  represented by the rational number it denotes, and each arithmetic operation
  (`fadd`, `fmul`, `fdiv`) computes the exact rational result and rounds it to
  53 significand bits with round-to-nearest, ties-to-even (`round64`).  The
  model omits overflow/underflow/NaN handling: every value this program
  produces lies well inside the normal binary64 range (magnitudes between
  about `2^-64` and `2^66`), where `round64` is the exact IEEE semantics.
* The thread fork/join structure is flattened: each task `t` is the pure
  computation of its local sum (`taskSum`), the per-thread writes are the
  ordered list `writeEvents`, and the post-join combination is the fold
  `total_sum`.
* `main`'s argument handling is `runProgram`, with C++ `istringstream`
  extraction into an unsigned integer modelled by `parseArg` (skip leading
  whitespace, optional sign, maximal digit run, wrap negative values modulo
  the type width, fail on no digits or on magnitude overflow).

An exact-rational mirror of the numeric pipeline (`piApproxQ`) is also defined,
to separate what holds of the algorithm in exact arithmetic from what holds of
its floating-point realisation.
-/

/-! ## Kernel-evaluable rational arithmetic

The `Rat` field operations from Batteries are marked `@[irreducible]`, so a
`decide`-based evaluation of the model cannot unfold them.  The model
therefore computes with the reducible constructor `Rat.divInt`; each
operation below is proved equal to the corresponding field operation on `ℚ`
(`qadd_eq`, `qsub_eq`, `qmul_eq`, `qdivQ_eq`, `half_eq`), so every theorem
can be read with the ordinary `+`, `-`, `*`, `/`. -/

/-- Rational addition, computed on numerators and denominators. -/
def qadd (a b : ℚ) : ℚ :=
  Rat.divInt (a.num * (b.den : ℤ) + b.num * (a.den : ℤ)) ((a.den : ℤ) * (b.den : ℤ))

/-- Rational subtraction, computed on numerators and denominators. -/
def qsub (a b : ℚ) : ℚ :=
  Rat.divInt (a.num * (b.den : ℤ) - b.num * (a.den : ℤ)) ((a.den : ℤ) * (b.den : ℤ))

/-- Rational multiplication, computed on numerators and denominators. -/
def qmul (a b : ℚ) : ℚ :=
  Rat.divInt (a.num * b.num) ((a.den : ℤ) * (b.den : ℤ))

/-- Rational division, computed on numerators and denominators. -/
def qdivQ (a b : ℚ) : ℚ :=
  Rat.divInt (a.num * (b.den : ℤ)) ((a.den : ℤ) * b.num)

/-- The exactly representable `double` literal `0.5`. -/
def half : ℚ := Rat.divInt 1 2

/-- Fuel-driven base-2 logarithm (structural recursion, so that proofs by
`decide` can evaluate it; `Nat.log2` itself is defined by well-founded
recursion, which does not reduce). -/
def log2fuel : ℕ → ℕ → ℕ
  | 0, _ => 0
  | fuel + 1, n => if 2 ≤ n then log2fuel fuel (n / 2) + 1 else 0

/-- Computable form of `Nat.log2`: `nlog2 n = Nat.log2 n` (`nlog2_eq`). -/
def nlog2 (n : ℕ) : ℕ := log2fuel n n

/-! ## IEEE-754 binary64 model -/

/-- The rational number `2 ^ d` for an integer exponent `d`. -/
def pow2 (d : ℤ) : ℚ :=
  if 0 ≤ d then ((2 ^ d.toNat : ℕ) : ℚ) else Rat.divInt 1 ((2 ^ (-d).toNat : ℕ) : ℤ)

/-- Floor of the base-2 logarithm of a positive rational. -/
def flog2 (q : ℚ) : ℤ :=
  if pow2 ((nlog2 q.num.natAbs : ℤ) - (nlog2 q.den : ℤ)) ≤ q
  then (nlog2 q.num.natAbs : ℤ) - (nlog2 q.den : ℤ)
  else (nlog2 q.num.natAbs : ℤ) - (nlog2 q.den : ℤ) - 1

/-- Round a rational to the nearest integer, ties to even. -/
def rnearest (m : ℚ) : ℤ :=
  if qsub m (⌊m⌋ : ℚ) < half then ⌊m⌋
  else if half < qsub m (⌊m⌋ : ℚ) then ⌊m⌋ + 1
  else if ⌊m⌋ % 2 = 0 then ⌊m⌋ else ⌊m⌋ + 1

/-- Round a positive rational to 53 significand bits, round-to-nearest with
ties-to-even: the significand scaled into `[2^52, 2^53)` is rounded to the
nearest integer (even on ties) and scaled back. -/
def roundPos (q : ℚ) : ℚ :=
  qmul (rnearest (qmul q (pow2 (52 - flog2 q))) : ℚ) (pow2 (flog2 q - 52))

/-- Round an arbitrary rational to the nearest IEEE-754 binary64 value
(ties-to-even), in the normal range.  This is the correctly-rounded result
mandated by IEEE-754 for every `double` operation. -/
def round64 (q : ℚ) : ℚ :=
  if q = 0 then 0 else if 0 < q then roundPos q else -(roundPos (-q))

/-- Addition of `double`s: exact sum, correctly rounded. -/
def fadd (a b : ℚ) : ℚ := round64 (qadd a b)

/-- Multiplication of `double`s: exact product, correctly rounded. -/
def fmul (a b : ℚ) : ℚ := round64 (qmul a b)

/-- Division of `double`s: exact quotient, correctly rounded. -/
def fdiv (a b : ℚ) : ℚ := round64 (qdivQ a b)

/-- Conversion `static_cast<double>` of an unsigned integer: correctly rounded. -/
def toF64 (n : ℕ) : ℚ := round64 (n : ℚ)

/-! ## The partitioner (`main`, lines 44–50) -/

/-- Source: `uint64_t base_chunk = n / num_threads;` -/
def base_chunk (n w : ℕ) : ℕ := n / w

/-- Source: `uint64_t remainder = n % num_threads;` -/
def remainder (n w : ℕ) : ℕ := n % w

/-- Source: `uint64_t start_idx = t * base_chunk + std::min<uint64_t>(t, remainder);` -/
def start_idx (n w t : ℕ) : ℕ := t * base_chunk n w + min t (remainder n w)

/-- Source: `uint64_t chunk_size = base_chunk + (t < remainder ? 1 : 0);` -/
def chunk_size (n w t : ℕ) : ℕ := base_chunk n w + (if t < remainder n w then 1 else 0)

/-- Source: `uint64_t end_idx = start_idx + chunk_size;` -/
def end_idx (n w t : ℕ) : ℕ := start_idx n w t + chunk_size n w t

/-- The work ranges handed to the tasks, as `(start, length)` pairs in task
index order `t = 0, …, w-1`. -/
def rangesList (n w : ℕ) : List (ℕ × ℕ) :=
  (List.range w).map (fun t => (start_idx n w t, chunk_size n w t))

/-! ## The task body and combination (`main`, lines 37, 52–66) -/

/-- Source: `double dx = 1.0 / static_cast<double>(n);` -/
def dxF (n : ℕ) : ℚ := fdiv 1 (toF64 n)

/-- Source: `double x = (static_cast<double>(i) + 0.5) * dx;` -/
def xOf (i : ℕ) (dx : ℚ) : ℚ := fmul (fadd (toF64 i) half) dx

/-- The denominator `1.0 + x * x` of the integrand, in `double` arithmetic. -/
def denomF (i : ℕ) (dx : ℚ) : ℚ := fadd 1 (fmul (xOf i dx) (xOf i dx))

/-- One integrand evaluation `4.0 / (1.0 + x * x)` in `double` arithmetic
(the literals `4.0`, `1.0`, `0.5` are exactly representable). -/
def integrandF (i : ℕ) (dx : ℚ) : ℚ := fdiv 4 (denomF i dx)

/-- The task body: `local_sum = 0.0; for (i = s; i < e; ++i) local_sum += …;`
a fold in ascending index order over `[s, e)`, a pure function of
`(s, e, dx)`. -/
def local_sum (s e : ℕ) (dx : ℚ) : ℚ :=
  (List.range' s (e - s)).foldl (fun acc i => fadd acc (integrandF i dx)) 0

/-- The value task `t` computes and stores into `partial_sums[t]`. -/
def taskSum (n w t : ℕ) : ℚ :=
  local_sum (start_idx n w t) (end_idx n w t) (dxF n)

/-- The per-task writes to the result vector, in task order, as
`(slot index, value written)` pairs: task `t` performs exactly the single
write `partial_sums[t] = local_sum`. -/
def writeEvents (n w : ℕ) : List (ℕ × ℚ) :=
  (List.range w).map (fun t => (t, taskSum n w t))

/-- Source: `double total_sum = 0.0; for (auto v : partial_sums) total_sum += v;`
the combination fold over slots `0, 1, …, w-1`. -/
def total_sum (n w : ℕ) : ℚ :=
  (List.range w).foldl (fun acc t => fadd acc (taskSum n w t)) 0

/-- Source: `double pi_approx = total_sum * dx;` — the program's π estimate as a
function of the (already clamped) inputs. -/
def pi_approx (n w : ℕ) : ℚ := fmul (total_sum n w) (dxF n)

/-! ## Exact-arithmetic mirror of the same pipeline -/

/-- Midpoint abscissa `(i + 1/2) / n`, in exact rational arithmetic. -/
def xQ (n i : ℕ) : ℚ := ((i : ℚ) + 1 / 2) * (1 / (n : ℚ))

/-- Integrand `4 / (1 + x²)` at the `i`-th midpoint, exact. -/
def integrandQ (n i : ℕ) : ℚ := 4 / (1 + xQ n i * xQ n i)

/-- Exact local sum of a task over `[s, e)`. -/
def localSumQ (n s e : ℕ) : ℚ := ((List.range' s (e - s)).map (integrandQ n)).sum

/-- Exact-arithmetic estimate: partial sums over the same work ranges,
combined and scaled by the exact `1/n`. -/
def piApproxQ (n w : ℕ) : ℚ :=
  ((List.range w).map (fun t => localSumQ n (start_idx n w t) (end_idx n w t))).sum
    * (1 / (n : ℚ))

/-! ## Argument handling (`main`, lines 13–32) -/

/-- Whitespace skipped by `istream >> unsigned`, as classified by
`std::isspace` in the default locale. -/
def isSpaceC (c : Char) : Bool :=
  c == ' ' || c == '\t' || c == '\n' || c == '\r' || c == '\x0b' || c == '\x0c'

/-- Digit run of a C++ unsigned stream extraction: requires at least one
decimal digit; the value of the maximal digit run, with magnitude overflow
beyond `modulus - 1` failing the extraction and a leading `-` wrapping the
value modulo `modulus` (C++11 `num_get` / `strtoull` semantics). -/
def parseDigits (modulus : ℕ) (neg : Bool) (cs : List Char) : Option ℕ :=
  let ds := cs.takeWhile Char.isDigit
  if ds.isEmpty then none
  else
    let v := ds.foldl (fun a c => a * 10 + (c.toNat - 48)) 0
    if modulus ≤ v then none
    else if neg then some ((modulus - v) % modulus) else some v

/-- Extraction `istringstream ss(s); ss >> x` for an unsigned integer type of width
`modulus = 2^bits`: skip leading whitespace, read an optional sign and a
digit run. -/
def parseArg (modulus : ℕ) (s : String) : Option ℕ :=
  match s.toList.dropWhile isSpaceC with
  | '-' :: rest => parseDigits modulus true rest
  | '+' :: rest => parseDigits modulus false rest
  | rest => parseDigits modulus false rest

/-- Extraction `ss >> n` into `uint64_t n`. -/
def parseU64 (s : String) : Option ℕ := parseArg (2 ^ 64) s

/-- Extraction `ss >> num_threads` into `unsigned int num_threads`
(32-bit on the targeted platforms). -/
def parseU32 (s : String) : Option ℕ := parseArg (2 ^ 32) s

/-- Source: `if (num_threads > n) num_threads = min(num_threads, n);` -/
def effWorkers (n w : ℕ) : ℕ := if w > n then min w n else w

/-- Successful program outcome: the echoed `n`, the effective worker count,
and the computed `double` estimate. -/
structure ProgOutput where
  n : ℕ
  w : ℕ
  estimate : ℚ

/-- The function `main`, with the output statements and timing stripped: `hw` is the
detected hardware concurrency, `args` the command-line arguments after the
program name.  `Except.error c` is `return c;` on the validation paths,
reached before any work range or partial sum exists. -/
def runProgram (hw : ℕ) (args : List String) : Except ℕ ProgOutput :=
  let w0 := if hw = 0 then 1 else hw
  let pn : Except ℕ ℕ :=
    match args.head? with
    | none => .ok 100000000
    | some s =>
      match parseU64 s with
      | none => .error 1
      | some v => if v = 0 then .error 1 else .ok v
  match pn with
  | .error c => .error c
  | .ok n =>
    let pw : Except ℕ ℕ :=
      match args[1]? with
      | none => .ok w0
      | some s =>
        match parseU32 s with
        | none => .error 1
        | some v => if v = 0 then .error 1 else .ok v
    match pw with
    | .error c => .error c
    | .ok w =>
      let wEff := effWorkers n w
      .ok ⟨n, wEff, pi_approx n wEff⟩

/-- Reference accumulation described by the spec: add the values `f s`,
`f (s+1)`, …, one at a time in ascending index order, starting from `0.0`,
with `double` addition; `specAccum f s k` is the sum of the first `k`
terms. -/
def specAccum (f : ℕ → ℚ) (s : ℕ) : ℕ → ℚ
  | 0 => 0
  | k + 1 => fadd (specAccum f s k) (f (s + k))

/-! ## The computable operations agree with the field operations on `ℚ` -/

/-- Agreement: `qadd` is addition on `ℚ`. -/
theorem qadd_eq (a b : ℚ) : qadd a b = a + b := by
  rw [qadd, Rat.divInt_eq_div]
  push_cast
  conv_rhs => rw [← Rat.num_div_den a, ← Rat.num_div_den b]
  rw [div_add_div _ _ (by exact_mod_cast a.den_nz) (by exact_mod_cast b.den_nz)]
  ring_nf

/-- Agreement: `qsub` is subtraction on `ℚ`. -/
theorem qsub_eq (a b : ℚ) : qsub a b = a - b := by
  rw [qsub, Rat.divInt_eq_div]
  push_cast
  conv_rhs => rw [← Rat.num_div_den a, ← Rat.num_div_den b]
  rw [div_sub_div _ _ (by exact_mod_cast a.den_nz) (by exact_mod_cast b.den_nz)]
  ring_nf

/-- Agreement: `qmul` is multiplication on `ℚ`. -/
theorem qmul_eq (a b : ℚ) : qmul a b = a * b := by
  rw [qmul, Rat.divInt_eq_div]
  push_cast
  conv_rhs => rw [← Rat.num_div_den a, ← Rat.num_div_den b]
  rw [div_mul_div_comm]

/-- Agreement: `qdivQ` is division on `ℚ`. -/
theorem qdivQ_eq (a b : ℚ) : qdivQ a b = a / b := by
  rcases eq_or_ne b 0 with hb | hb
  · subst hb
    show Rat.divInt (a.num * ((0 : ℚ).den : ℤ)) ((a.den : ℤ) * (0 : ℚ).num) = a / 0
    norm_num [Rat.divInt_eq_div]
  · have hbn : ((b.num : ℚ)) ≠ 0 := by
      exact_mod_cast Rat.num_ne_zero.mpr hb
    have had : ((a.den : ℚ)) ≠ 0 := by exact_mod_cast a.den_nz
    have hbd : ((b.den : ℚ)) ≠ 0 := by exact_mod_cast b.den_nz
    rw [qdivQ, Rat.divInt_eq_div]
    push_cast
    conv_rhs => rw [← Rat.num_div_den a, ← Rat.num_div_den b]
    field_simp

/-- Agreement: `half` is the rational `1/2`. -/
theorem half_eq : half = 1 / 2 := by rw [half, Rat.divInt_eq_div]; norm_num

/-- The fuel-driven logarithm agrees with `Nat.log2` when given enough fuel. -/
theorem log2fuel_eq (fuel : ℕ) : ∀ n, n ≤ fuel → log2fuel fuel n = Nat.log2 n := by
  induction fuel with
  | zero =>
    intro n hn
    have h0 : n = 0 := Nat.le_zero.mp hn
    subst h0
    show (0 : ℕ) = Nat.log2 0
    conv_rhs => rw [Nat.log2]
    norm_num
  | succ f ih =>
    intro n hn
    rw [log2fuel]
    by_cases h2 : 2 ≤ n
    · rw [if_pos h2, ih (n / 2) (by omega)]
      conv_rhs => rw [Nat.log2]
      rw [if_pos h2]
    · rw [if_neg h2]
      conv_rhs => rw [Nat.log2]
      rw [if_neg h2]

/-- Agreement: `nlog2` computes `Nat.log2`. -/
theorem nlog2_eq (n : ℕ) : nlog2 n = Nat.log2 n := log2fuel_eq n n le_rfl

/-! ## Partition arithmetic -/

/-- Consecutive ranges are contiguous: the next range starts where the
previous one ends. -/
theorem start_idx_succ (n w t : ℕ) :
    start_idx n w (t + 1) = start_idx n w t + chunk_size n w t := by
  unfold start_idx chunk_size
  rw [Nat.succ_mul]
  rcases Nat.lt_or_ge t (remainder n w) with h | h
  · rw [if_pos h]
    omega
  · rw [if_neg (Nat.not_lt.mpr h)]
    omega

/-- The virtual `w`-th start is `n`: the last range ends exactly at `n`. -/
theorem start_idx_top (n w : ℕ) (hw : 0 < w) : start_idx n w w = n := by
  unfold start_idx base_chunk remainder
  have h1 := Nat.div_add_mod n w
  have h2 : n % w < w := Nat.mod_lt _ hw
  omega

/-- The concatenation of the first `k` ranges is the interval
`[0, start_idx n w k)`. -/
theorem ranges_flatten_aux (n w : ℕ) :
    ∀ k, ((List.range k).map
        (fun t => List.range' (start_idx n w t) (chunk_size n w t))).flatten
      = List.range' 0 (start_idx n w k) := by
  intro k
  induction k with
  | zero =>
    have h0 : start_idx n w 0 = 0 := by unfold start_idx; omega
    simp [h0]
  | succ k ih =>
    rw [List.range_succ, List.map_append, List.flatten_append, ih]
    have happ := List.range'_append 0 (start_idx n w k) (chunk_size n w k) 1
    simp only [one_mul, Nat.zero_add] at happ
    simp only [List.map_cons, List.map_nil, List.flatten_cons, List.flatten_nil,
      List.append_nil]
    rw [happ, start_idx_succ]
    ring_nf

/-- The concatenation of all work ranges, in task order, is `[0, n)`. -/
theorem ranges_flatten (n w : ℕ) (hw : 0 < w) :
    ((rangesList n w).map (fun r => List.range' r.1 r.2)).flatten = List.range n := by
  unfold rangesList
  rw [List.map_map]
  have h := ranges_flatten_aux n w w
  rw [start_idx_top n w hw] at h
  rw [← List.range_eq_range'] at h
  exact h

/-! ## Loop folds -/

/-- The `for` loop accumulation over `[s, s+k)` is the ascending-order
reference accumulation. -/
theorem foldl_fadd_accum (g : ℕ → ℚ) :
    ∀ (k s : ℕ), (List.range' s k).foldl (fun a i => fadd a (g i)) 0 = specAccum g s k := by
  intro k
  induction k with
  | zero => intro s; rfl
  | succ k ih =>
    intro s
    rw [List.range'_concat, List.foldl_append, ih]
    simp [specAccum, Nat.one_mul]

/-! ## Bounds on the rounding function -/

/-- Agreement: `pow2` is the integer power `2 ^ d` in `ℚ`. -/
theorem pow2_eq_zpow (d : ℤ) : pow2 d = (2 : ℚ) ^ d := by
  rcases le_or_lt 0 d with h | h
  · lift d to ℕ using h with k
    rw [pow2, if_pos (Int.natCast_nonneg k), Int.toNat_natCast]
    push_cast
    rw [zpow_natCast]
  · rw [pow2, if_neg (not_le.mpr h), Rat.divInt_eq_div]
    have h2 : d = -(((-d).toNat : ℕ) : ℤ) := by omega
    conv_rhs => rw [h2]
    rw [zpow_neg, zpow_natCast]
    push_cast
    rw [one_div]

/-- Positivity of `pow2`. -/
theorem pow2_pos (d : ℤ) : 0 < pow2 d := by
  rw [pow2_eq_zpow]
  exact zpow_pos (by norm_num) d

/-- Exponent addition law for `pow2`. -/
theorem pow2_add (a b : ℤ) : pow2 (a + b) = pow2 a * pow2 b := by
  rw [pow2_eq_zpow, pow2_eq_zpow, pow2_eq_zpow]
  exact zpow_add₀ (by norm_num) a b

/-- Lower bound: `pow2` of a nonnegative exponent is at least `1`. -/
theorem one_le_pow2 (d : ℤ) (h : 0 ≤ d) : 1 ≤ pow2 d := by
  lift d to ℕ using h with k
  rw [pow2, if_pos (Int.natCast_nonneg k), Int.toNat_natCast]
  exact_mod_cast Nat.one_le_two_pow

/-- Upper bound: `pow2` of a nonpositive exponent is at most `1`. -/
theorem pow2_le_one (d : ℤ) (h : d ≤ 0) : pow2 d ≤ 1 := by
  rw [pow2_eq_zpow]
  rcases eq_or_lt_of_le h with h0 | h0
  · rw [h0, zpow_zero]
  · have h2 : d = -(((-d).toNat : ℕ) : ℤ) := by omega
    rw [h2, zpow_neg, zpow_natCast]
    rw [inv_le_one_iff₀]
    right
    exact_mod_cast Nat.one_le_two_pow

/-- The exponent chosen by `flog2` is a lower witness: `2 ^ flog2 q ≤ q`. -/
theorem pow2_flog2_le (q : ℚ) (hq : 0 < q) : pow2 (flog2 q) ≤ q := by
  rw [flog2]
  split
  · assumption
  · rename_i hcond
    simp only [nlog2_eq] at *
    have hnum : (0 : ℤ) < q.num := Rat.num_pos.mpr hq
    have hp : q.num.natAbs ≠ 0 := Int.natAbs_ne_zero.mpr (by omega)
    have hlb : (2 : ℚ) ^ q.num.natAbs.log2 ≤ (q.num.natAbs : ℚ) := by
      exact_mod_cast Nat.log2_self_le hp
    have hub : (q.den : ℚ) < (2 : ℚ) ^ (q.den.log2 + 1) := by
      exact_mod_cast Nat.lt_log2_self
    have hcast : ((q.num.natAbs : ℕ) : ℚ) = ((q.num : ℤ) : ℚ) := by
      rw [Int.cast_natAbs]
      exact_mod_cast abs_of_nonneg hnum.le
    have hq_eq : q = (q.num.natAbs : ℚ) / (q.den : ℚ) := by
      rw [hcast]
      exact (Rat.num_div_den q).symm
    have hdpos : (0 : ℚ) < (q.den : ℚ) := by exact_mod_cast q.pos
    have hd : pow2 ((q.num.natAbs.log2 : ℤ) - (q.den.log2 : ℤ) - 1)
        = (2 : ℚ) ^ q.num.natAbs.log2 / (2 : ℚ) ^ (q.den.log2 + 1) := by
      have he : (q.num.natAbs.log2 : ℤ) - (q.den.log2 : ℤ) - 1
          = (q.num.natAbs.log2 : ℤ) - ((q.den.log2 + 1 : ℕ) : ℤ) := by
        push_cast
        ring
      rw [pow2_eq_zpow, he, zpow_sub₀ (by norm_num : (2 : ℚ) ≠ 0), zpow_natCast, zpow_natCast]
    refine le_of_lt ?_
    calc pow2 ((q.num.natAbs.log2 : ℤ) - (q.den.log2 : ℤ) - 1)
        = (2 : ℚ) ^ q.num.natAbs.log2 / (2 : ℚ) ^ (q.den.log2 + 1) := hd
      _ < (2 : ℚ) ^ q.num.natAbs.log2 / (q.den : ℚ) :=
          div_lt_div_of_pos_left (by positivity) hdpos hub
      _ ≤ (q.num.natAbs : ℚ) / (q.den : ℚ) := by
          apply div_le_div_of_nonneg_right hlb hdpos.le
      _ = q := hq_eq.symm

/-- For `q ≥ 1` the chosen binary exponent is nonnegative. -/
theorem flog2_nonneg (q : ℚ) (h1 : 1 ≤ q) : 0 ≤ flog2 q := by
  have hq : 0 < q := lt_of_lt_of_le one_pos h1
  have hnum : (0 : ℤ) < q.num := Rat.num_pos.mpr hq
  have hden : (q.den : ℤ) ≤ q.num := by
    have hd : (0 : ℚ) < (q.den : ℚ) := by exact_mod_cast q.pos
    have := (one_le_div hd).mp (by rwa [Rat.num_div_den q])
    exact_mod_cast this
  have habs : (q.den : ℤ) ≤ (q.num.natAbs : ℤ) := by
    rwa [Int.natAbs_of_nonneg hnum.le]
  have hmono : q.den.log2 ≤ q.num.natAbs.log2 := by
    rw [Nat.log2_eq_log_two, Nat.log2_eq_log_two]
    exact Nat.log_mono_right (by exact_mod_cast habs)
  rw [flog2]
  simp only [nlog2_eq]
  split
  · omega
  · rename_i hc
    by_contra hneg
    push_neg at hneg
    have hd0 : (q.num.natAbs.log2 : ℤ) - (q.den.log2 : ℤ) ≤ 0 := by omega
    have hle1 : pow2 ((q.num.natAbs.log2 : ℤ) - (q.den.log2 : ℤ)) ≤ 1 :=
      pow2_le_one _ hd0
    exact hc (le_trans hle1 h1)

/-- Rounding to nearest never goes below the floor. -/
theorem floor_le_rnearest (m : ℚ) : ⌊m⌋ ≤ rnearest m := by
  rw [rnearest]
  split
  · exact le_refl _
  · split
    · omega
    · split <;> omega

/-- Rounding to nearest of a nonnegative number is nonnegative. -/
theorem rnearest_nonneg (m : ℚ) (h : 0 ≤ m) : 0 ≤ rnearest m :=
  le_trans (Int.floor_nonneg.mpr h) (floor_le_rnearest m)

/-- The positive rounding keeps at least the value's binade floor:
`2 ^ flog2 q ≤ roundPos q`. -/
theorem roundPos_lb (q : ℚ) (hq : 0 < q) : pow2 (flog2 q) ≤ roundPos q := by
  rw [roundPos, qmul_eq, qmul_eq]
  have hm : pow2 52 ≤ q * pow2 (52 - flog2 q) := by
    have h1 := mul_le_mul_of_nonneg_right (pow2_flog2_le q hq) (pow2_pos (52 - flog2 q)).le
    rwa [← pow2_add, (by ring : flog2 q + (52 - flog2 q) = (52 : ℤ))] at h1
  have hcast52 : ((2 ^ 52 : ℤ) : ℚ) = pow2 52 := by
    rw [pow2_eq_zpow]
    norm_num
  have hfl : (2 ^ 52 : ℤ) ≤ ⌊q * pow2 (52 - flog2 q)⌋ := by
    rw [Int.le_floor, hcast52]
    exact hm
  have hrn : (2 ^ 52 : ℤ) ≤ rnearest (q * pow2 (52 - flog2 q)) :=
    le_trans hfl (floor_le_rnearest _)
  calc pow2 (flog2 q) = pow2 52 * pow2 (flog2 q - 52) := by
        rw [← pow2_add]
        ring_nf
    _ ≤ (rnearest (q * pow2 (52 - flog2 q)) : ℚ) * pow2 (flog2 q - 52) := by
        apply mul_le_mul_of_nonneg_right _ (pow2_pos _).le
        rw [← hcast52]
        exact_mod_cast hrn

/-- The positive rounding of a positive number is nonnegative. -/
theorem roundPos_nonneg (q : ℚ) (hq : 0 < q) : 0 ≤ roundPos q := by
  rw [roundPos, qmul_eq, qmul_eq]
  apply mul_nonneg _ (pow2_pos _).le
  exact_mod_cast rnearest_nonneg _ (mul_nonneg hq.le (pow2_pos _).le)

/-- Correct rounding preserves nonnegativity. -/
theorem round64_nonneg (q : ℚ) (h : 0 ≤ q) : 0 ≤ round64 q := by
  rw [round64]
  split
  · exact le_refl 0
  · split
    · rename_i h0 hpos
      exact roundPos_nonneg q hpos
    · rename_i h0 hpos
      exact absurd (h.lt_of_ne (Ne.symm h0)) hpos

/-- Correct rounding of a number at least `1` stays at least `1` (there is
no rounding across the binade floor `2 ^ flog2 q ≥ 1`). -/
theorem round64_one_le (q : ℚ) (h : 1 ≤ q) : 1 ≤ round64 q := by
  rw [round64]
  split
  · rename_i h0
    rw [h0] at h
    norm_num at h
  · split
    · rename_i h0 hpos
      exact le_trans (one_le_pow2 _ (flog2_nonneg q h)) (roundPos_lb q hpos)
    · rename_i h0 hpos
      exact absurd (lt_of_lt_of_le one_pos h) hpos

/-! ## Claims -/

/-- C1: for every `N ≥ 1` and `1 ≤ W ≤ N` the partitioner returns exactly `W`
work ranges; range `t` starts at `t*(N/W) + min t (N%W)` and has length
`N/W + 1` for `t < N%W` and `N/W` otherwise; consecutive ranges are
contiguous in ascending task order; the concatenation of the ranges in task
order is exactly `[0, N)`; the ranges are pairwise disjoint; and any two
range lengths differ by at most one. -/
theorem partition_ranges_exact (n w : ℕ) (hn : 1 ≤ n) (hw : 1 ≤ w) (hwn : w ≤ n) :
    (rangesList n w).length = w ∧
    (∀ t, t < w → (rangesList n w)[t]? =
      some (t * (n / w) + min t (n % w), n / w + if t < n % w then 1 else 0)) ∧
    (∀ t, t + 1 < w → start_idx n w (t + 1) = start_idx n w t + chunk_size n w t) ∧
    ((rangesList n w).map (fun r => List.range' r.1 r.2)).flatten = List.range n ∧
    List.Pairwise List.Disjoint ((rangesList n w).map (fun r => List.range' r.1 r.2)) ∧
    (∀ t1 t2, t1 < w → t2 < w → chunk_size n w t1 ≤ chunk_size n w t2 + 1) := by
  refine ⟨?_, ?_, ?_, ?_, ?_, ?_⟩
  · simp [rangesList]
  · intro t ht
    simp [rangesList, List.getElem?_map, List.getElem?_range ht, start_idx, chunk_size,
      base_chunk, remainder]
  · intro t _
    exact start_idx_succ n w t
  · exact ranges_flatten n w hw
  · have hnd : (((rangesList n w).map (fun r => List.range' r.1 r.2)).flatten).Nodup := by
      rw [ranges_flatten n w hw]
      exact List.nodup_range n
    exact (List.nodup_flatten.mp hnd).2
  · intro t1 t2 _ _
    unfold chunk_size
    split <;> split <;> omega

/-- Witness for C1 at `N = 7`, `W = 3` (ranges `[0,3) [3,5) [5,7)`). -/
theorem partition_ranges_exact_witness :
    (rangesList 7 3).length = 3 ∧
    (∀ t, t < 3 → (rangesList 7 3)[t]? =
      some (t * (7 / 3) + min t (7 % 3), 7 / 3 + if t < 7 % 3 then 1 else 0)) ∧
    (∀ t, t + 1 < 3 → start_idx 7 3 (t + 1) = start_idx 7 3 t + chunk_size 7 3 t) ∧
    ((rangesList 7 3).map (fun r => List.range' r.1 r.2)).flatten = List.range 7 ∧
    List.Pairwise List.Disjoint ((rangesList 7 3).map (fun r => List.range' r.1 r.2)) ∧
    (∀ t1 t2, t1 < 3 → t2 < 3 → chunk_size 7 3 t1 ≤ chunk_size 7 3 t2 + 1) :=
  partition_ranges_exact 7 3 (by decide) (by decide) (by decide)

/-- C3: the task body over `[s, e)` is exactly the ascending-index
accumulation of the integrand values `4 / (1 + ((i+0.5)·dx)²)` by
double-precision addition starting from `0.0`; it is a pure function of
`(s, e, dx)` (both sides are closed terms in `s`, `e`, `dx` only). -/
theorem local_sum_ascending (s e : ℕ) (dx : ℚ) :
    local_sum s e dx = specAccum (fun i => integrandF i dx) s (e - s) ∧
    ∀ i, integrandF i dx =
      fdiv 4 (fadd 1 (fmul (fmul (fadd (toF64 i) half) dx) (fmul (fadd (toF64 i) half) dx))) := by
  constructor
  · rw [local_sum]
    exact foldl_fadd_accum _ (e - s) s
  · intro i
    rfl

/-- C4: the final combination is the fold of the `W` partial results in slot
order `0, 1, …, W-1` by double-precision addition starting from `0.0`,
multiplied by `dx`, where `dx` is the `double` quotient `1 / N`. -/
theorem combine_fixed_order (n w : ℕ) :
    pi_approx n w = fmul (specAccum (taskSum n w) 0 w) (dxF n) ∧
    dxF n = fdiv 1 (toF64 n) := by
  constructor
  · rw [pi_approx, total_sum, List.range_eq_range',
      foldl_fadd_accum (taskSum n w) w 0]
  · rfl

/-- C6: the effective worker count used for partitioning is
`min(workers, N)`: clamped down to `N` when the request exceeds `N`,
unchanged otherwise. -/
theorem workers_clamped (n w : ℕ) : effWorkers n w = min w n := by
  rw [effWorkers]
  split
  · rfl
  · rename_i h
    omega

/-- C8: the task-to-slot mapping is a bijection onto the `W` slots: the
sequence of write events has exactly `W` writes whose slot indices are
precisely `0, 1, …, W-1` (each in bounds, no slot written twice, none
missed), slot `t` holding task `t`'s value, and the combination fold reads
exactly these written values once each, in slot order. -/
theorem slot_mapping_bijective (n w : ℕ) :
    (writeEvents n w).map Prod.fst = List.range w ∧
    ((writeEvents n w).map Prod.fst).Nodup ∧
    (∀ e ∈ writeEvents n w, e.1 < w) ∧
    (writeEvents n w).length = w ∧
    (∀ t, t < w → (writeEvents n w)[t]? = some (t, taskSum n w t)) ∧
    pi_approx n w = fmul ((writeEvents n w).foldl (fun acc e => fadd acc e.2) 0) (dxF n) := by
  have hfst : (writeEvents n w).map Prod.fst = List.range w := by
    rw [writeEvents, List.map_map]
    exact List.map_id _
  refine ⟨hfst, ?_, ?_, ?_, ?_, ?_⟩
  · rw [hfst]
    exact List.nodup_range w
  · intro e he
    rw [writeEvents] at he
    obtain ⟨t, ht, rfl⟩ := List.mem_map.mp he
    exact List.mem_range.mp ht
  · rw [writeEvents]
    simp
  · intro t ht
    rw [writeEvents]
    simp [List.getElem?_map, List.getElem?_range ht]
  · rw [pi_approx, total_sum, writeEvents, List.foldl_map]

/-- C9: in every integrand evaluation the `double` denominator
`1.0 + x * x` is at least `1`, hence nonzero: the division `4 / (1 + x²)`
is never a division by zero, for any index `i` and any step value `dx`. -/
theorem denom_never_zero (i : ℕ) (dx : ℚ) : 1 ≤ denomF i dx ∧ denomF i dx ≠ 0 := by
  have hx2 : 0 ≤ fmul (xOf i dx) (xOf i dx) := by
    rw [fmul, qmul_eq]
    exact round64_nonneg _ (mul_self_nonneg _)
  have h1 : 1 ≤ denomF i dx := by
    rw [denomF, fadd, qadd_eq]
    exact round64_one_le _ (by linarith)
  exact ⟨h1, (lt_of_lt_of_le one_pos h1).ne'⟩

/-- C2 (amended): the estimate is a deterministic function of `(N, W)` alone,
and in exact rational arithmetic the estimate depends only on `N`: any two
valid worker counts give the same exact value, because the partition covers
`[0, N)` exactly and exact addition is associative. -/
theorem estimate_w_independent_exact (n w1 w2 : ℕ)
    (h1 : 1 ≤ w1) (h1n : w1 ≤ n) (h2 : 1 ≤ w2) (h2n : w2 ≤ n) :
    piApproxQ n w1 = piApproxQ n w2 := by
  suffices h : ∀ w, 1 ≤ w →
      piApproxQ n w = ((List.range n).map (integrandQ n)).sum * (1 / (n : ℚ)) by
    rw [h w1 h1, h w2 h2]
  intro w hw
  rw [piApproxQ]
  congr 1
  have hloc : ∀ t, localSumQ n (start_idx n w t) (end_idx n w t)
      = ((List.range' (start_idx n w t) (chunk_size n w t)).map (integrandQ n)).sum := by
    intro t
    rw [localSumQ]
    have hc : end_idx n w t - start_idx n w t = chunk_size n w t := by
      rw [end_idx]
      omega
    rw [hc]
  have hfun : (fun t => localSumQ n (start_idx n w t) (end_idx n w t))
      = ((List.sum ∘ List.map (integrandQ n)) ∘
          fun t => List.range' (start_idx n w t) (chunk_size n w t)) :=
    funext hloc
  have hflat := ranges_flatten_aux n w w
  rw [start_idx_top n w hw, ← List.range_eq_range'] at hflat
  rw [← hflat, List.map_flatten, List.sum_flatten, List.map_map, List.map_map, hfun]

set_option maxRecDepth 100000 in
/-- C2 (counterexample): the claimed bit-for-bit equality of the computed
`double` estimate across worker counts fails at `N = 5` for `W = 1` versus
`W = 3` (both satisfy `1 ≤ W ≤ N`): the reassociation of the partial-sum
rounding changes the last bit. -/
theorem estimate_not_bitforbit : ¬ (pi_approx 5 1 = pi_approx 5 3) := by decide

/-- Witness for `estimate_w_independent_exact` at `N = 5`, `W₁ = 1`, `W₂ = 3`. -/
theorem estimate_w_independent_exact_witness :
    1 ≤ 1 ∧ 1 ≤ 5 ∧ 1 ≤ 3 ∧ 3 ≤ 5 ∧ piApproxQ 5 1 = piApproxQ 5 3 :=
  ⟨by decide, by decide, by decide, by decide,
   estimate_w_independent_exact 5 1 3 (by decide) (by decide) (by decide) (by decide)⟩

/-- C5: a non-numeric or zero first argument, or (when the first argument is
valid) a non-numeric or zero second argument, makes the program return exit
status 1; the error result carries no partition and no partial sum, so no
computation is performed. -/
theorem invalid_args_rejected (hw : ℕ) (a : String) (rest : List String) :
    ((parseU64 a = none ∨ parseU64 a = some 0) → runProgram hw (a :: rest) = .error 1) ∧
    (∀ (v : ℕ) (b : String) (rest2 : List String), parseU64 a = some v → v ≠ 0 →
      (parseU32 b = none ∨ parseU32 b = some 0) →
      runProgram hw (a :: b :: rest2) = .error 1) := by
  constructor
  · intro h
    rcases h with h | h <;> simp [runProgram, h]
  · intro v b rest2 hv hv0 hb
    rcases hb with hb | hb <;> simp [runProgram, hv, hv0, hb]

/-- Witness for C5: `N = "abc"` and `workers = "0"` both exit with status 1. -/
theorem invalid_args_rejected_witness :
    runProgram 4 ["abc"] = .error 1 ∧ runProgram 4 ["5", "0"] = .error 1 :=
  ⟨(invalid_args_rejected 4 "abc" []).1 (Or.inl (by decide)),
   (invalid_args_rejected 4 "5" []).2 5 "0" [] (by decide) (by decide) (Or.inr (by decide))⟩

/-- C7: for `N = 1` any requested worker count is clamped to `1`, the step is
the exact `double` `1`, and the estimate is one integrand evaluation at the
midpoint of `[0,1]` (`x = 0.5`, denominator `1 + 0.25`) multiplied by
`dx = 1`, i.e. the correctly rounded `double` value of `16/5 = 4/(1+0.25)`. -/
theorem single_rectangle (w : ℕ) (hw : 1 ≤ w) :
    effWorkers 1 w = 1 ∧
    dxF 1 = 1 ∧
    pi_approx 1 (effWorkers 1 w) = fmul (integrandF 0 (dxF 1)) (dxF 1) ∧
    pi_approx 1 (effWorkers 1 w) = round64 (16 / 5) := by
  have h1 : effWorkers 1 w = 1 := by
    rw [effWorkers]
    split <;> omega
  refine ⟨h1, by decide, ?_, ?_⟩
  · rw [h1]
    decide
  · rw [h1]
    have h165 : (16 / 5 : ℚ) = Rat.divInt 16 5 := by
      rw [Rat.divInt_eq_div]
      norm_num
    rw [h165]
    decide

/-- Witness for C7 at requested worker count `5`. -/
theorem single_rectangle_witness :
    effWorkers 1 5 = 1 ∧
    dxF 1 = 1 ∧
    pi_approx 1 (effWorkers 1 5) = fmul (integrandF 0 (dxF 1)) (dxF 1) ∧
    pi_approx 1 (effWorkers 1 5) = round64 (16 / 5) :=
  single_rectangle 5 (by decide)

/-- C10: the argument `"-1"` passes validation: stream extraction into the
unsigned 64-bit `n` wraps it to `2^64 - 1`, which is nonzero, so the program
proceeds to compute with the wrapped value instead of exiting with status 1. -/
theorem negative_n_wraps :
    parseU64 "-1" = some (2 ^ 64 - 1) ∧
    runProgram 4 ["-1"] = .ok ⟨2 ^ 64 - 1, 4, pi_approx (2 ^ 64 - 1) 4⟩ :=
  ⟨by decide, rfl⟩
